import Mathlib

/-!
Verification of the Pipeline State & Condensation Engine of the interactive
pass-pipeline explorer (`xdsl/interactive/app.py`).

The engine is embedded shallowly, parametrised over the external collaborators:
* `Env` stands for `MLContext` (a fresh one is built per recomputation; building
  it and loading all dialects is folded into a fixed value `env0`),
* `Program` stands for `builtin.ModuleOp`,
* `Err` stands for the Python exception values caught by the engine.

A pass definition (`type[ModulePass]` in the source) is modelled by its name and
its application semantics: `run env prog` yields the final (possibly partially
mutated) environment and program together with `none` when the application
returned normally, or `some e` when it raised exception `e`.  Structural
equivalence (`ModuleOp.is_structurally_equivalent`) is an abstract boolean
relation `equiv`.  Deep cloning of a value in a functional embedding is the
value itself; the in-place mutation semantics that cloning protects against is
modelled explicitly by the `Store` development further down.
-/

namespace XdslInteractive

/-- A pass definition: a unique name and the application semantics of
`value().apply(ctx, module)`, which mutates `ctx`/`module` in place (the
returned pair) and possibly raises (the `Option Err` component). -/
structure PassDef (Env Program Err : Type) where
  name : String
  run : Env → Program → (Env × Program) × Option Err

variable {Env Program Err : Type}

/-- The body of one trial of `condensed_pass_list`: pass `value` is kept when
its standalone application to (a clone of) `input` inside (a clone of) the
environment raises (`except Exception` branch), or succeeds with a result that
is not structurally equivalent to `input`
(`if not input.is_structurally_equivalent(cloned_module)`). -/
def trialIncludes (equiv : Program → Program → Bool) (env0 : Env)
    (input : Program) (value : PassDef Env Program Err) : Bool :=
  let r := value.run env0 input
  r.2.isSome || !(equiv input r.1.2)

/-- `condensed_pass_list(input)` from `app.py`: iterate over the catalog
(`for _, value in ALL_PASSES`), and append `value` to the selections exactly
when its isolated trial is interesting.  The environment `env0` models the
`MLContext(True)` with all dialects loaded that the function builds once and
re-clones per trial. -/
def condensed_pass_list (equiv : Program → Program → Bool) (env0 : Env)
    (input : Program) :
    List (PassDef Env Program Err) → List (PassDef Env Program Err)
  | [] => []
  | value :: rest =>
    if trialIncludes equiv env0 input value then
      value :: condensed_pass_list equiv env0 input rest
    else
      condensed_pass_list equiv env0 input rest

lemma condensed_eq_filter (equiv : Program → Program → Bool) (env0 : Env)
    (input : Program) (catalog : List (PassDef Env Program Err)) :
    condensed_pass_list equiv env0 input catalog
      = catalog.filter (trialIncludes equiv env0 input) := by
  induction catalog with
  | nil => rfl
  | cons value rest ih =>
    by_cases h : trialIncludes equiv env0 input value
    · simp [condensed_pass_list, List.filter, h, ih]
    · simp [condensed_pass_list, List.filter, h, ih]

/-- Modelled from the spec: `PipelinePass.apply` lives in the external pass
library (`xdsl.passes`, not part of this repository's source).  Per the spec,
it "applies them sequentially, in order, to the parsed Program, using the same
Environment", and "the first pass whose application raises any failure aborts
the remaining pipeline; the failure is captured and returned". -/
def pipelineApply : Env → Program → List (PassDef Env Program Err) →
    Except Err (Env × Program)
  | env, prog, [] => .ok (env, prog)
  | env, prog, p :: ps =>
    let r := p.run env prog
    match r.2 with
    | some e => .error e
    | none => pipelineApply r.1.1 r.1.2 ps

/-- The value of the reactive variable `current_module`:
`None` (no source text), a parsed/transformed `ModuleOp`, or a caught
exception. -/
inductive CurrentResult (Program Err : Type) where
  | empty
  | parsed (m : Program)
  | failure (e : Err)
deriving DecidableEq

/-- The controller state held by `InputApp`: the input text area's text, the
reactive pass pipeline, the condensation toggle, and the derived
`current_module`.  (`available_pass_list` is derived on demand by
`compute_available_pass_list` and therefore not stored.) -/
structure AppState (Env Program Err : Type) where
  sourceText : String
  passPipeline : List (PassDef Env Program Err)
  condenseMode : Bool
  currentModule : CurrentResult Program Err

/-- `update_current_module` from `app.py`: empty input text yields
`current_module = None`; otherwise a fresh context is built and the text is
parsed (`parse env0 text`, modelling `Parser(ctx, input_text).parse_module()`
and returning the post-parse context and module), the selected passes are
applied via `PipelinePass`, and any exception raised along the way is caught
and stored as the current module. -/
def update_current_module (parse : Env → String → Except Err (Env × Program))
    (env0 : Env) (st : AppState Env Program Err) : AppState Env Program Err :=
  if st.sourceText = "" then
    { st with currentModule := .empty }
  else
    match parse env0 st.sourceText with
    | .error e => { st with currentModule := .failure e }
    | .ok em =>
      match pipelineApply em.1 em.2 st.passPipeline with
      | .error e => { st with currentModule := .failure e }
      | .ok em2 => { st with currentModule := .parsed em2.2 }

/-- `compute_available_pass_list` from `app.py`: the full catalog when
`current_module` is `None`; the empty tuple when it is an exception; for a
parsed module, the condensed list in condense mode and the full catalog
otherwise.  The catalog is the name-keyed `ALL_PASSES` tuple. -/
def compute_available_pass_list (equiv : Program → Program → Bool) (env0 : Env)
    (catalog : List (String × PassDef Env Program Err))
    (st : AppState Env Program Err) : List (PassDef Env Program Err) :=
  match st.currentModule with
  | .empty => catalog.map Prod.snd
  | .failure _ => []
  | .parsed m =>
    if st.condenseMode then
      condensed_pass_list equiv env0 m (catalog.map Prod.snd)
    else
      catalog.map Prod.snd

/-- The controller's state at construction time: the input `TextArea` starts
empty, and the reactive variables start at their declared defaults
(`current_module = None`, `pass_pipeline = ()`, `condense_mode = False`). -/
def initState : AppState Env Program Err :=
  { sourceText := ""
    passPipeline := []
    condenseMode := false
    currentModule := .empty }

/-- `update_pass_pipeline` from `app.py`: on a `ListView.Selected` event
carrying item name `selectedPass` (a `str | None`), scan `ALL_PASSES` in order;
on the first exact name match append the matched pass to the pipeline and
return; if nothing matches, fall through leaving the pipeline untouched. -/
def update_pass_pipeline (catalog : List (String × PassDef Env Program Err))
    (pipeline : List (PassDef Env Program Err)) (selectedPass : Option String) :
    List (PassDef Env Program Err) :=
  match catalog with
  | [] => pipeline
  | (name, value) :: rest =>
    if some name = selectedPass then pipeline ++ [value]
    else update_pass_pipeline rest pipeline selectedPass

/-- Pointwise update of a heap, used to model in-place mutation of a Python
object through its reference. -/
def setFun {α : Type} (f : Nat → α) (i : Nat) (a : α) : Nat → α :=
  fun j => if j = i then a else f j

/-- An explicit object store making the in-place mutation of `app.py` visible:
`MLContext` objects live in `envH`, `ModuleOp` objects in `progH`; references
below the allocation counters `nextEnv`/`nextProg` are live. -/
structure Store (Env Program : Type) where
  envH : Nat → Env
  progH : Nat → Program
  nextEnv : Nat
  nextProg : Nat

/-- Allocate a fresh environment object holding value `e`. -/
def Store.allocEnv (s : Store Env Program) (e : Env) :
    Store Env Program × Nat :=
  ({ s with envH := setFun s.envH s.nextEnv e, nextEnv := s.nextEnv + 1 },
    s.nextEnv)

/-- Allocate a fresh program object holding value `p`. -/
def Store.allocProg (s : Store Env Program) (p : Program) :
    Store Env Program × Nat :=
  ({ s with progH := setFun s.progH s.nextProg p, nextProg := s.nextProg + 1 },
    s.nextProg)

/-- `input.clone()`: deep-copy the program object at `r` into a fresh object. -/
def Store.cloneProg (s : Store Env Program) (r : Nat) :
    Store Env Program × Nat :=
  s.allocProg (s.progH r)

/-- `ctx.clone()`: deep-copy the environment object at `r` into a fresh
object. -/
def Store.cloneEnv (s : Store Env Program) (r : Nat) :
    Store Env Program × Nat :=
  s.allocEnv (s.envH r)

/-- `value().apply(cloned_ctx, cloned_module)` at the store level: the pass
reads the objects at `re`/`rp`, mutates exactly those two objects in place
(possibly leaving them in a partial state), and possibly raises. -/
def applyAt (value : PassDef Env Program Err) (s : Store Env Program)
    (re rp : Nat) : Store Env Program × Option Err :=
  let r := value.run (s.envH re) (s.progH rp)
  ({ s with envH := setFun s.envH re r.1.1, progH := setFun s.progH rp r.1.2 },
    r.2)

/-- One loop iteration of `condensed_pass_list` at the store level: clone the
input program object at `ri` and the context object at `rctx`, apply the pass
to the clones, and report whether the pass is kept — it is on a raise, or when
the mutated clone is no longer structurally equivalent to the object at
`ri`. -/
def condensedTrial (equiv : Program → Program → Bool)
    (value : PassDef Env Program Err) (s : Store Env Program) (ri rctx : Nat) :
    Store Env Program × Bool :=
  let c1 := s.cloneProg ri
  let c2 := c1.1.cloneEnv rctx
  let a := applyAt value c2.1 c2.2 c1.2
  (a.1, a.2.isSome || !(equiv (a.1.progH ri) (a.1.progH c1.2)))

/-- The loop of `condensed_pass_list` at the store level: run the isolated
trial of every catalog entry in order, appending the kept passes. -/
def condensedLoopStore (equiv : Program → Program → Bool) :
    List (PassDef Env Program Err) → Store Env Program → Nat → Nat →
    Store Env Program × List (PassDef Env Program Err)
  | [], s, _, _ => (s, [])
  | value :: rest, s, ri, rctx =>
    let t := condensedTrial equiv value s ri rctx
    let res := condensedLoopStore equiv rest t.1 ri rctx
    (res.1, if t.2 then value :: res.2 else res.2)

/-- `condensed_pass_list(input)` at the store level: build the context object
(`MLContext(True)` with all dialects loaded, of value `env0`) once, then run
the per-pass trials against the input program object at `ri`. -/
def condensed_pass_list_store (equiv : Program → Program → Bool) (env0 : Env)
    (catalog : List (PassDef Env Program Err)) (s : Store Env Program)
    (ri : Nat) : Store Env Program × List (PassDef Env Program Err) :=
  let c := s.allocEnv env0
  condensedLoopStore equiv catalog c.1 ri c.2

lemma condensedTrial_spec (equiv : Program → Program → Bool)
    (value : PassDef Env Program Err) (s : Store Env Program) (ri rctx : Nat)
    (hri : ri < s.nextProg) (_hctx : rctx < s.nextEnv) :
    (∀ r, r < s.nextProg →
      (condensedTrial equiv value s ri rctx).1.progH r = s.progH r)
    ∧ (∀ r, r < s.nextEnv →
      (condensedTrial equiv value s ri rctx).1.envH r = s.envH r)
    ∧ (condensedTrial equiv value s ri rctx).1.nextProg = s.nextProg + 1
    ∧ (condensedTrial equiv value s ri rctx).1.nextEnv = s.nextEnv + 1
    ∧ (condensedTrial equiv value s ri rctx).2
        = trialIncludes equiv (s.envH rctx) (s.progH ri) value := by
  have hrine : ri ≠ s.nextProg := Nat.ne_of_lt hri
  refine ⟨?_, ?_, rfl, rfl, ?_⟩
  · intro r hr
    have hrne : r ≠ s.nextProg := Nat.ne_of_lt hr
    simp [condensedTrial, Store.cloneProg, Store.cloneEnv, Store.allocProg,
      Store.allocEnv, applyAt, setFun, hrne]
  · intro r hr
    have hrne : r ≠ s.nextEnv := Nat.ne_of_lt hr
    simp [condensedTrial, Store.cloneProg, Store.cloneEnv, Store.allocProg,
      Store.allocEnv, applyAt, setFun, hrne]
  · simp [condensedTrial, Store.cloneProg, Store.cloneEnv, Store.allocProg,
      Store.allocEnv, applyAt, setFun, trialIncludes, hrine]

lemma condensedLoopStore_spec (equiv : Program → Program → Bool)
    (catalog : List (PassDef Env Program Err)) :
    ∀ (s : Store Env Program) (ri rctx : Nat),
      ri < s.nextProg → rctx < s.nextEnv →
      (∀ r, r < s.nextProg →
        (condensedLoopStore equiv catalog s ri rctx).1.progH r = s.progH r)
      ∧ (∀ r, r < s.nextEnv →
        (condensedLoopStore equiv catalog s ri rctx).1.envH r = s.envH r)
      ∧ s.nextProg ≤ (condensedLoopStore equiv catalog s ri rctx).1.nextProg
      ∧ s.nextEnv ≤ (condensedLoopStore equiv catalog s ri rctx).1.nextEnv
      ∧ (condensedLoopStore equiv catalog s ri rctx).2
          = condensed_pass_list equiv (s.envH rctx) (s.progH ri) catalog := by
  induction catalog with
  | nil =>
    intro s ri rctx _ _
    exact ⟨fun r _ => rfl, fun r _ => rfl, Nat.le_refl _, Nat.le_refl _, rfl⟩
  | cons value rest ih =>
    intro s ri rctx hri hctx
    obtain ⟨hp, he, hnp, hne, hb⟩ :=
      condensedTrial_spec equiv value s ri rctx hri hctx
    set t := condensedTrial equiv value s ri rctx with ht
    have hri' : ri < t.1.nextProg := by
      rw [hnp]; exact Nat.lt_succ_of_lt hri
    have hctx' : rctx < t.1.nextEnv := by
      rw [hne]; exact Nat.lt_succ_of_lt hctx
    obtain ⟨ihp, ihe, ihnp, ihne, ihs⟩ := ih t.1 ri rctx hri' hctx'
    have hcons : condensedLoopStore equiv (value :: rest) s ri rctx =
        ((condensedLoopStore equiv rest t.1 ri rctx).1,
          if t.2 then value :: (condensedLoopStore equiv rest t.1 ri rctx).2
          else (condensedLoopStore equiv rest t.1 ri rctx).2) := rfl
    rw [hcons]
    refine ⟨?_, ?_, ?_, ?_, ?_⟩
    · intro r hr
      have hr' : r < t.1.nextProg := by
        rw [hnp]; exact Nat.lt_succ_of_lt hr
      exact (ihp r hr').trans (hp r hr)
    · intro r hr
      have hr' : r < t.1.nextEnv := by
        rw [hne]; exact Nat.lt_succ_of_lt hr
      exact (ihe r hr').trans (he r hr)
    · exact Nat.le_trans (Nat.le_of_lt (hnp ▸ Nat.lt_succ_self _)) ihnp
    · exact Nat.le_trans (Nat.le_of_lt (hne ▸ Nat.lt_succ_self _)) ihne
    · have henv : t.1.envH rctx = s.envH rctx := he rctx hctx
      have hprog : t.1.progH ri = s.progH ri := hp ri hri
      simp only [ihs, henv, hprog, hb, condensed_pass_list]

/-- Full specification of the store-level condensation run: every live object
other than the freshly allocated trial clones is left untouched (in
particular, the base program object at `ri` and the whole environment heap are
unchanged), the allocation counters only grow, and the selections coincide
with the pure condensation of the base program's value. -/
lemma condensed_store_full_spec (equiv : Program → Program → Bool) (env0 : Env)
    (catalog : List (PassDef Env Program Err)) (s : Store Env Program)
    (ri : Nat) (hri : ri < s.nextProg) :
    (∀ r, r < s.nextProg →
      (condensed_pass_list_store equiv env0 catalog s ri).1.progH r = s.progH r)
    ∧ (∀ r, r < s.nextEnv →
      (condensed_pass_list_store equiv env0 catalog s ri).1.envH r = s.envH r)
    ∧ s.nextProg ≤ (condensed_pass_list_store equiv env0 catalog s ri).1.nextProg
    ∧ s.nextEnv ≤ (condensed_pass_list_store equiv env0 catalog s ri).1.nextEnv
    ∧ (condensed_pass_list_store equiv env0 catalog s ri).2
        = condensed_pass_list equiv env0 (s.progH ri) catalog := by
  have hc : condensed_pass_list_store equiv env0 catalog s ri =
      condensedLoopStore equiv catalog (s.allocEnv env0).1 ri
        (s.allocEnv env0).2 := rfl
  obtain ⟨hp, he, hnp, hne, hs⟩ :=
    condensedLoopStore_spec equiv catalog (s.allocEnv env0).1 ri
      (s.allocEnv env0).2 (by exact hri) (Nat.lt_succ_self _)
  rw [hc]
  refine ⟨?_, ?_, ?_, ?_, ?_⟩
  · intro r hr
    exact hp r hr
  · intro r hr
    have hr' : r < (s.allocEnv env0).1.nextEnv := Nat.lt_succ_of_lt hr
    have hrne : r ≠ s.nextEnv := Nat.ne_of_lt hr
    refine (he r hr').trans ?_
    simp [Store.allocEnv, setFun, hrne]
  · exact hnp
  · exact Nat.le_trans (Nat.le_succ _) hne
  · refine hs.trans ?_
    simp [Store.allocEnv, setFun]

/-! Concrete pass definitions, catalogs, stores and parsers used to exercise
the theorems on closed inputs. -/

/-- Structural equivalence on the toy program type `Nat`. -/
def eqNat : Nat → Nat → Bool := fun a b => a == b

/-- A pass that changes the program. -/
def pIncr : PassDef Nat Nat String :=
  { name := "incr", run := fun env prog => ((env, prog + 1), none) }

/-- A pass that applies cleanly and leaves the program unchanged. -/
def pNoop : PassDef Nat Nat String :=
  { name := "noop", run := fun env prog => ((env, prog), none) }

/-- A pass that raises. -/
def pBoom : PassDef Nat Nat String :=
  { name := "boom", run := fun env prog => ((env, prog), some "boom") }

/-- A toy catalog of pass values, in name-sorted order. -/
def cat0 : List (PassDef Nat Nat String) := [pBoom, pIncr, pNoop]

/-- The toy catalog keyed by name, mirroring `ALL_PASSES`. -/
def namedCat0 : List (String × PassDef Nat Nat String) :=
  [("boom", pBoom), ("incr", pIncr), ("noop", pNoop)]

/-- A toy store with one environment object and one program object. -/
def store0 : Store Nat Nat :=
  { envH := fun _ => 0, progH := fun _ => 5, nextEnv := 1, nextProg := 1 }

/-! Claim theorems. -/

/-- C1: fail-open — for every program `input` and every pass `p` in the
catalog, if applying `p` standalone to (a clone of) `input` raises any
failure, then `p` is included in the condensed pass list. -/
theorem condense_fail_open (equiv : Program → Program → Bool) (env0 : Env)
    (input : Program) (catalog : List (PassDef Env Program Err))
    (p : PassDef Env Program Err) (hmem : p ∈ catalog)
    (hraises : (p.run env0 input).2.isSome = true) :
    p ∈ condensed_pass_list equiv env0 input catalog := by
  rw [condensed_eq_filter]
  refine List.mem_filter.mpr ⟨hmem, ?_⟩
  simp [trialIncludes, hraises]

theorem condense_fail_open_witness :
    pBoom ∈ cat0 ∧ (pBoom.run 0 5).2.isSome = true ∧
      pBoom ∈ condensed_pass_list eqNat 0 5 cat0 :=
  ⟨by simp [cat0], rfl,
    condense_fail_open eqNat 0 5 cat0 pBoom (by simp [cat0]) rfl⟩

/-- C2: for every program `input` and every pass `p` whose standalone
application to a clone of `input` succeeds, structural equivalence of the
mutated clone with `input` decides membership: equivalent → `p` is excluded
from the condensed list; not equivalent (and `p` in the catalog) → `p` is
included. -/
theorem condense_noop_excluded_effect_included
    (equiv : Program → Program → Bool) (env0 : Env) (input : Program)
    (catalog : List (PassDef Env Program Err)) (p : PassDef Env Program Err)
    (hok : (p.run env0 input).2 = none) :
    (equiv input (p.run env0 input).1.2 = true →
      p ∉ condensed_pass_list equiv env0 input catalog)
    ∧ (p ∈ catalog → equiv input (p.run env0 input).1.2 = false →
      p ∈ condensed_pass_list equiv env0 input catalog) := by
  constructor
  · intro heq hmem
    rw [condensed_eq_filter] at hmem
    have hkeep := (List.mem_filter.mp hmem).2
    simp [trialIncludes, hok, heq] at hkeep
  · intro hmem hneq
    rw [condensed_eq_filter]
    refine List.mem_filter.mpr ⟨hmem, ?_⟩
    simp [trialIncludes, hok, hneq]

theorem condense_noop_excluded_effect_included_witness :
    (pNoop.run 0 5).2 = none ∧ eqNat 5 (pNoop.run 0 5).1.2 = true ∧
      pNoop ∉ condensed_pass_list eqNat 0 5 cat0 ∧
      (pIncr.run 0 5).2 = none ∧ eqNat 5 (pIncr.run 0 5).1.2 = false ∧
      pIncr ∈ condensed_pass_list eqNat 0 5 cat0 :=
  ⟨rfl, rfl,
    (condense_noop_excluded_effect_included eqNat 0 5 cat0 pNoop rfl).1 rfl,
    rfl, rfl,
    (condense_noop_excluded_effect_included eqNat 0 5 cat0 pIncr rfl).2
      (by simp [cat0]) rfl⟩

/-- C6: for every program `input`, the condensed pass list is a subsequence of
the catalog — every element of the result occurs in the catalog and the
catalog's original (name-sorted) relative order is preserved. -/
theorem condense_sublist (equiv : Program → Program → Bool) (env0 : Env)
    (input : Program) (catalog : List (PassDef Env Program Err)) :
    (condensed_pass_list equiv env0 input catalog).Sublist catalog := by
  rw [condensed_eq_filter]
  exact List.filter_sublist catalog

lemma pipelineApply_append (env : Env) (m : Program)
    (l1 l2 : List (PassDef Env Program Err)) :
    pipelineApply env m (l1 ++ l2) =
      match pipelineApply env m l1 with
      | .error e => .error e
      | .ok em => pipelineApply em.1 em.2 l2 := by
  induction l1 generalizing env m with
  | nil => rfl
  | cons q ps ih =>
    simp only [List.cons_append, pipelineApply]
    cases hq : (q.run env m).2 with
    | none => simp only [hq]; exact ih _ _
    | some e => simp only [hq]

/-- C3: for non-empty source text that parses successfully, the pipeline is
applied sequentially in order: if every pass before `p` succeeds and `p`
raises error `e`, then for every choice of suffix the pipeline application
stops at `e` — the suffix is never applied — and the recomputed
`current_module` is the failure `e`. -/
theorem pipeline_abort_on_failure
    (parse : Env → String → Except Err (Env × Program)) (env0 : Env)
    (st : AppState Env Program Err) (ps1 : List (PassDef Env Program Err))
    (p : PassDef Env Program Err) (env1 : Env) (m : Program) (env2 : Env)
    (m2 : Program) (e : Err)
    (hsrc : ¬st.sourceText = "")
    (hparse : parse env0 st.sourceText = .ok (env1, m))
    (hpre : pipelineApply env1 m ps1 = .ok (env2, m2))
    (hfail : (p.run env2 m2).2 = some e) :
    ∀ ps2 : List (PassDef Env Program Err),
      pipelineApply env1 m (ps1 ++ p :: ps2) = .error e
      ∧ (update_current_module parse env0
          { st with passPipeline := ps1 ++ p :: ps2 }).currentModule
          = .failure e := by
  intro ps2
  have happly : pipelineApply env1 m (ps1 ++ p :: ps2) = .error e := by
    rw [pipelineApply_append, hpre]
    simp only [pipelineApply, hfail]
  refine ⟨happly, ?_⟩
  simp [update_current_module, hsrc, hparse, happly]

theorem pipeline_abort_on_failure_witness :
    pipelineApply 0 5 ([pIncr] ++ pBoom :: [pNoop]) = .error "boom" ∧
    (update_current_module (fun env _ => .ok (env, 5)) 0
      { sourceText := "prog", passPipeline := [pIncr] ++ pBoom :: [pNoop],
        condenseMode := false,
        currentModule := .empty } : AppState Nat Nat String).currentModule
      = .failure "boom" :=
  pipeline_abort_on_failure (fun env _ => .ok (env, 5)) 0
    { sourceText := "prog", passPipeline := [pIncr] ++ pBoom :: [pNoop],
      condenseMode := false, currentModule := .empty }
    [pIncr] pBoom 0 5 0 6 "boom" (by decide) rfl rfl rfl [pNoop]

/-- C4: whenever `current_module` holds a failure, the computed available pass
list is the empty sequence, independent of the condensation mode (which is an
arbitrary component of the state here). -/
theorem failure_empty_pass_list (equiv : Program → Program → Bool) (env0 : Env)
    (catalog : List (String × PassDef Env Program Err))
    (st : AppState Env Program Err) (e : Err)
    (hfail : st.currentModule = .failure e) :
    compute_available_pass_list equiv env0 catalog st = [] := by
  simp [compute_available_pass_list, hfail]

theorem failure_empty_pass_list_witness :
    ({ sourceText := "x", passPipeline := [], condenseMode := true,
        currentModule := .failure "err" } :
        AppState Nat Nat String).currentModule = .failure "err" ∧
    compute_available_pass_list eqNat 0 namedCat0
      { sourceText := "x", passPipeline := [], condenseMode := true,
        currentModule := .failure "err" } = [] :=
  ⟨rfl, failure_empty_pass_list eqNat 0 namedCat0
    { sourceText := "x", passPipeline := [], condenseMode := true,
      currentModule := .failure "err" } "err" rfl⟩

/-- C5: for empty source text, recomputation yields `current_module = None`
for every parser and every pipeline — the result does not depend on either, so
no parse is attempted and no pass is applied. -/
theorem empty_source_empty_result
    (parse : Env → String → Except Err (Env × Program)) (env0 : Env)
    (st : AppState Env Program Err) (hsrc : st.sourceText = "") :
    (update_current_module parse env0 st).currentModule = .empty := by
  simp [update_current_module, hsrc]

theorem empty_source_empty_result_witness :
    ({ sourceText := "", passPipeline := [pBoom], condenseMode := false,
        currentModule := .empty } : AppState Nat Nat String).sourceText = "" ∧
    (update_current_module (fun _ _ => .error "parse") 0
      { sourceText := "", passPipeline := [pBoom], condenseMode := false,
        currentModule := .empty } : AppState Nat Nat String).currentModule
      = .empty :=
  ⟨rfl, empty_source_empty_result (fun _ _ => .error "parse") 0
    { sourceText := "", passPipeline := [pBoom], condenseMode := false,
      currentModule := .empty } rfl⟩

/-- C7: in the controller's state at construction, the source text is empty,
the pass pipeline is the empty sequence, condensation mode is off, the current
module is `None`, and the derived available pass list is the full catalog. -/
theorem initial_state_spec (equiv : Program → Program → Bool) (env0 : Env)
    (catalog : List (String × PassDef Env Program Err)) :
    (initState : AppState Env Program Err).sourceText = ""
    ∧ (initState : AppState Env Program Err).passPipeline = []
    ∧ (initState : AppState Env Program Err).condenseMode = false
    ∧ (initState : AppState Env Program Err).currentModule = .empty
    ∧ compute_available_pass_list equiv env0 catalog initState
        = catalog.map Prod.snd :=
  ⟨rfl, rfl, rfl, rfl, rfl⟩

/-- C8: running the condensation filter on the program object at `ri` leaves
that object — and every other live program and environment object — untouched:
each trial applies its pass only to freshly allocated clones, so no trial's
mutation is observable by the base program or by any other trial, and the
selections coincide with the pure condensation of the base program's value
(each trial's verdict depends on the base value and its own pass alone).  The
catalog is a pure input and is not part of the mutable store at all. -/
theorem condense_frame (equiv : Program → Program → Bool) (env0 : Env)
    (catalog : List (PassDef Env Program Err)) (s : Store Env Program)
    (ri : Nat) (hri : ri < s.nextProg) :
    (∀ r, r < s.nextProg →
      (condensed_pass_list_store equiv env0 catalog s ri).1.progH r
        = s.progH r)
    ∧ (∀ r, r < s.nextEnv →
      (condensed_pass_list_store equiv env0 catalog s ri).1.envH r = s.envH r)
    ∧ (condensed_pass_list_store equiv env0 catalog s ri).2
        = condensed_pass_list equiv env0 (s.progH ri) catalog := by
  obtain ⟨hp, he, _, _, hs⟩ :=
    condensed_store_full_spec equiv env0 catalog s ri hri
  exact ⟨hp, he, hs⟩

theorem condense_frame_witness :
    0 < store0.nextProg
    ∧ (condensed_pass_list_store eqNat 0 cat0 store0 0).1.progH 0
        = store0.progH 0
    ∧ (condensed_pass_list_store eqNat 0 cat0 store0 0).2
        = condensed_pass_list eqNat 0 (store0.progH 0) cat0 :=
  ⟨Nat.zero_lt_one,
    (condense_frame eqNat 0 cat0 store0 0 Nat.zero_lt_one).1 0 Nat.zero_lt_one,
    (condense_frame eqNat 0 cat0 store0 0 Nat.zero_lt_one).2.2⟩

/-- C9: condensation is a pure function of the (program value, catalog) pair —
running the filter a second time on the same program object, starting from the
store the first run left behind, yields the same subsequence. -/
theorem condense_idempotent (equiv : Program → Program → Bool) (env0 : Env)
    (catalog : List (PassDef Env Program Err)) (s : Store Env Program)
    (ri : Nat) (hri : ri < s.nextProg) :
    (condensed_pass_list_store equiv env0 catalog
        (condensed_pass_list_store equiv env0 catalog s ri).1 ri).2
      = (condensed_pass_list_store equiv env0 catalog s ri).2 := by
  obtain ⟨hp, _, hnp, _, hs⟩ :=
    condensed_store_full_spec equiv env0 catalog s ri hri
  have hri2 :
      ri < (condensed_pass_list_store equiv env0 catalog s ri).1.nextProg :=
    Nat.lt_of_lt_of_le hri hnp
  obtain ⟨_, _, _, _, hs2⟩ :=
    condensed_store_full_spec equiv env0 catalog
      (condensed_pass_list_store equiv env0 catalog s ri).1 ri hri2
  rw [hs2, hs, hp ri hri]

theorem condense_idempotent_witness :
    0 < store0.nextProg
    ∧ (condensed_pass_list_store eqNat 0 cat0
          (condensed_pass_list_store eqNat 0 cat0 store0 0).1 0).2
        = (condensed_pass_list_store eqNat 0 cat0 store0 0).2 :=
  ⟨Nat.zero_lt_one, condense_idempotent eqNat 0 cat0 store0 0 Nat.zero_lt_one⟩

lemma update_pass_pipeline_cases
    (catalog : List (String × PassDef Env Program Err))
    (pipeline : List (PassDef Env Program Err)) (selectedPass : Option String) :
    update_pass_pipeline catalog pipeline selectedPass = pipeline
    ∨ ∃ nv ∈ catalog, some nv.1 = selectedPass ∧
        update_pass_pipeline catalog pipeline selectedPass
          = pipeline ++ [nv.2] := by
  induction catalog with
  | nil => exact Or.inl rfl
  | cons nv rest ih =>
    obtain ⟨name, value⟩ := nv
    by_cases h : some name = selectedPass
    · refine Or.inr ⟨(name, value), List.mem_cons_self _ _, h, ?_⟩
      simp [update_pass_pipeline, h]
    · have hstep : update_pass_pipeline ((name, value) :: rest) pipeline
          selectedPass = update_pass_pipeline rest pipeline selectedPass := by
        simp [update_pass_pipeline, h]
      rcases ih with heq | ⟨nv2, hnv2, hsel, heq⟩
      · exact Or.inl (hstep.trans heq)
      · exact Or.inr ⟨nv2, List.mem_cons_of_mem _ hnv2, hsel,
          hstep.trans heq⟩

/-- C10: the pass-selection handler is total (no error raised) and appends
only exact catalog matches: a selection name matching no catalog entry leaves
the pipeline unchanged; in every case the result is either the unchanged
pipeline or the pipeline with exactly one pass of a matching catalog entry
appended, so a pipeline containing only catalog passes still contains only
catalog passes afterwards. -/
theorem update_pass_pipeline_spec
    (catalog : List (String × PassDef Env Program Err))
    (pipeline : List (PassDef Env Program Err)) (selectedPass : Option String) :
    ((∀ nv ∈ catalog, some nv.1 ≠ selectedPass) →
      update_pass_pipeline catalog pipeline selectedPass = pipeline)
    ∧ (update_pass_pipeline catalog pipeline selectedPass = pipeline
        ∨ ∃ nv ∈ catalog, some nv.1 = selectedPass ∧
            update_pass_pipeline catalog pipeline selectedPass
              = pipeline ++ [nv.2])
    ∧ ((∀ q ∈ pipeline, q ∈ catalog.map Prod.snd) →
        ∀ q ∈ update_pass_pipeline catalog pipeline selectedPass,
          q ∈ catalog.map Prod.snd) := by
  refine ⟨?_, update_pass_pipeline_cases catalog pipeline selectedPass, ?_⟩
  · intro hall
    rcases update_pass_pipeline_cases catalog pipeline selectedPass with
      heq | ⟨nv, hnv, hsel, _⟩
    · exact heq
    · exact absurd hsel (hall nv hnv)
  · intro hsub q hq
    rcases update_pass_pipeline_cases catalog pipeline selectedPass with
      heq | ⟨nv, hnv, _, heq⟩
    · exact hsub q (heq ▸ hq)
    · rw [heq] at hq
      rcases List.mem_append.mp hq with h1 | h2
      · exact hsub q h1
      · have hq2 : q = nv.2 := by simpa using h2
        exact hq2 ▸ List.mem_map.mpr ⟨nv, hnv, rfl⟩

theorem update_pass_pipeline_spec_witness :
    update_pass_pipeline namedCat0 [pBoom] (some "zzz") = [pBoom]
    ∧ update_pass_pipeline namedCat0 [pBoom] none = [pBoom]
    ∧ (∀ q ∈ update_pass_pipeline namedCat0 [pBoom] (some "incr"),
        q ∈ namedCat0.map Prod.snd) :=
  ⟨(update_pass_pipeline_spec namedCat0 [pBoom] (some "zzz")).1
      (by intro nv hnv; fin_cases hnv <;> simp [namedCat0]),
    (update_pass_pipeline_spec namedCat0 [pBoom] none).1
      (by intro nv _; simp),
    (update_pass_pipeline_spec namedCat0 [pBoom] (some "incr")).2.2
      (by intro q hq; simp only [List.mem_singleton] at hq
          simp [hq, namedCat0])⟩

end XdslInteractive
